import Mathlib

/-!
Verification development for the py_stringsimjoin set-similarity join core.

Tokens are modelled as natural numbers (the integer token ids produced by the
global token ordering).  Python dictionaries are modelled as association lists
with insertion-order update semantics, which matches how the source only ever
reads dictionaries through key lookup and per-entry mutation.
-/

set_option autoImplicit false

namespace StringSimJoin

/-! ### Association-list dictionaries (model of Python dict) -/

/-- Lookup of a key in an association list, mirroring Python `d.get(k)`. -/
def alistGet {β : Type} (d : List (Nat × β)) (k : Nat) : Option β :=
  match d with
  | [] => none
  | (k', v) :: rest => if k' = k then some v else alistGet rest k

/-- Lookup with a default value, mirroring Python `d.get(k, v0)`. -/
def alistGetD {β : Type} (d : List (Nat × β)) (k : Nat) (v0 : β) : β :=
  (alistGet d k).getD v0

/-- In-place update `d[k] = v`: the entry keeps its position if the key is
present, otherwise it is appended at the end (Python dict insertion order). -/
def alistSet {β : Type} (d : List (Nat × β)) (k : Nat) (v : β) : List (Nat × β) :=
  match d with
  | [] => [(k, v)]
  | (k', v') :: rest =>
      if k' = k then (k, v) :: rest else (k', v') :: alistSet rest k v

theorem alistGet_set_self {β : Type} (d : List (Nat × β)) (k : Nat) (v : β) :
    alistGet (alistSet d k v) k = some v := by
  induction d with
  | nil => simp [alistSet, alistGet]
  | cons hd tl ih =>
      by_cases h : hd.1 = k
      · simp [alistSet, alistGet, h]
      · simp [alistSet, alistGet, h, ih]

theorem alistGet_set_other {β : Type} (d : List (Nat × β)) (k k' : Nat) (v : β)
    (hne : k ≠ k') : alistGet (alistSet d k v) k' = alistGet d k' := by
  induction d with
  | nil => simp [alistSet, alistGet, hne]
  | cons hd tl ih =>
      by_cases h : hd.1 = k
      · subst h
        simp only [alistSet, if_pos rfl, alistGet]
        rw [if_neg hne, if_neg hne]
      · simp only [alistSet, if_neg h, alistGet]
        by_cases h' : hd.1 = k'
        · simp [h']
        · simp [h', ih]

/-- A key of `alistSet d k v` is an old key or the new key `k`. -/
theorem mem_keys_alistSet {β : Type} (d : List (Nat × β)) (k : Nat) (v : β)
    (a : Nat) (hmem : a ∈ (alistSet d k v).map Prod.fst) :
    a ∈ d.map Prod.fst ∨ a = k := by
  induction d with
  | nil =>
      simp only [alistSet, List.map_cons, List.map_nil, List.mem_singleton] at hmem
      exact Or.inr hmem
  | cons hd tl ih =>
      by_cases hk : hd.1 = k
      · subst hk
        simp only [alistSet, if_pos rfl, List.map_cons, List.mem_cons] at hmem ⊢
        simp only [if_true] at hmem
        simp only [List.map_cons, List.mem_cons] at hmem
        exact Or.inl hmem
      · simp only [alistSet, if_neg hk, List.map_cons, List.mem_cons] at hmem ⊢
        rcases hmem with h1 | h2
        · exact Or.inl (Or.inl h1)
        · rcases ih h2 with h3 | h4
          · exact Or.inl (Or.inr h3)
          · exact Or.inr h4

/-- Updating an entry preserves key uniqueness. -/
theorem alistSet_keys_nodup {β : Type} (d : List (Nat × β)) (k : Nat) (v : β)
    (h : (d.map Prod.fst).Nodup) : ((alistSet d k v).map Prod.fst).Nodup := by
  induction d with
  | nil => simp [alistSet]
  | cons hd tl ih =>
      by_cases hk : hd.1 = k
      · subst hk
        simpa [alistSet] using h
      · simp only [List.map_cons, List.nodup_cons] at h
        have htl := ih h.2
        simp only [alistSet, if_neg hk, List.map_cons, List.nodup_cons]
        refine ⟨?_, htl⟩
        intro hmem
        rcases mem_keys_alistSet tl k v hd.1 hmem with h1 | h2
        · exact h.1 h1
        · exact hk h2

/-- A membership characterisation: an entry of `alistSet d k v` is either the
new entry or an old entry with a different key. -/
theorem mem_alistSet {β : Type} (d : List (Nat × β)) (k : Nat) (v : β)
    (p : Nat × β) (hp : p ∈ alistSet d k v) : p = (k, v) ∨ p ∈ d := by
  induction d with
  | nil => simpa [alistSet] using hp
  | cons hd tl ih =>
      by_cases hk : hd.1 = k
      · subst hk
        rcases (by simpa [alistSet] using hp : p = (hd.1, v) ∨ p ∈ tl) with h | h
        · exact Or.inl h
        · exact Or.inr (List.mem_cons_of_mem _ h)
      · simp only [alistSet, if_neg hk, List.mem_cons] at hp
        rcases hp with h | h
        · exact Or.inr (h ▸ List.mem_cons_self hd tl)
        · rcases ih h with h1 | h2
          · exact Or.inl h1
          · exact Or.inr (List.mem_cons_of_mem _ h2)

/-! ### Position index

Embedding of `py_stringsimjoin/index/position_index.py`.  A left record is a
pair `(key, orderedTokens)` where `orderedTokens` is the record's ordered token
list (the source computes it inside `build` via
`order_using_token_ordering(self.tokenizer.tokenize(...))`; the tokenizer and
ordering are applied before rows enter the model).  The prefix length function
`pl` stands for `get_prefix_length(num_tokens, sim_measure_type, threshold,
tokenizer)`, a function of the token count only once measure, threshold and
tokenizer are fixed. -/

structure PositionIndex where
  index : List (Nat × List (Nat × Nat))
  size_map : List (Nat × Nat)

/-- Python `self.index[token].append((row_id, pos))`, creating the posting list
if the token is absent. -/
def postingAppend (ix : List (Nat × List (Nat × Nat))) (t : Nat) (e : Nat × Nat) :
    List (Nat × List (Nat × Nat)) :=
  match ix with
  | [] => [(t, [e])]
  | (t', ps) :: rest =>
      if t' = t then (t, ps ++ [e]) :: rest else (t', ps) :: postingAppend rest t e

/-- The inner loop of `PositionIndex.build`: walk the ordered prefix of one
record, appending `(key, pos)` postings with an incrementing position counter. -/
def insertPostings (key : Nat) : List (Nat × List (Nat × Nat)) → Nat → List Nat →
    List (Nat × List (Nat × Nat))
  | ix, _, [] => ix
  | ix, pos, t :: ts => insertPostings key (postingAppend ix t (key, pos)) (pos + 1) ts

/-- The body of the `for row in self.table` loop of `PositionIndex.build`:
index the first `pl n` ordered tokens of the row with their positions and
record the total ordered token count in the size map. -/
def buildStep (pl : Nat → Nat) (acc : PositionIndex) (row : Nat × List Nat) : PositionIndex :=
  { index := insertPostings row.1 acc.index 0 (row.2.take (pl row.2.length)),
    size_map := alistSet acc.size_map row.1 row.2.length }

/-- Build of the position index: fold the per-row step over the left table. -/
def PositionIndex.build (rows : List (Nat × List Nat)) (pl : Nat → Nat) : PositionIndex :=
  rows.foldl (buildStep pl) ⟨[], []⟩

/-- Probe of the position index: `self.index.get(token, [])`. -/
def PositionIndex.probe (idx : PositionIndex) (t : Nat) : List (Nat × Nat) :=
  (alistGet idx.index t).getD []

/-- Size lookup: `self.size_map.get(row_id)` (None when the key is absent). -/
def PositionIndex.get_size (idx : PositionIndex) (k : Nat) : Option Nat :=
  alistGet idx.size_map k

theorem alistGet_postingAppend_self (ix : List (Nat × List (Nat × Nat))) (t : Nat)
    (e : Nat × Nat) :
    alistGet (postingAppend ix t e) t = some ((alistGet ix t).getD [] ++ [e]) := by
  induction ix with
  | nil => simp [postingAppend, alistGet]
  | cons hd tl ih =>
      obtain ⟨t', ps⟩ := hd
      by_cases h : t' = t
      · subst h
        simp [postingAppend, alistGet]
      · simp [postingAppend, alistGet, h, ih]

theorem alistGet_postingAppend_other (ix : List (Nat × List (Nat × Nat))) (t t'' : Nat)
    (e : Nat × Nat) (hne : t ≠ t'') :
    alistGet (postingAppend ix t e) t'' = alistGet ix t'' := by
  induction ix with
  | nil => simp [postingAppend, alistGet, hne]
  | cons hd tl ih =>
      obtain ⟨t', ps⟩ := hd
      by_cases h : t' = t
      · subst h
        simp only [postingAppend, if_pos rfl, alistGet]
        rw [if_neg hne, if_neg hne]
      · simp only [postingAppend, if_neg h, alistGet]
        by_cases h' : t' = t''
        · simp [h']
        · simp [h', ih]

/-- Membership in a posting list after a single append. -/
theorem mem_probe_postingAppend (ix : List (Nat × List (Nat × Nat))) (t t'' : Nat)
    (e p : Nat × Nat) :
    (p ∈ (alistGet (postingAppend ix t e) t'').getD []) ↔
      p ∈ (alistGet ix t'').getD [] ∨ (t = t'' ∧ p = e) := by
  by_cases h : t = t''
  · subst h
    rw [alistGet_postingAppend_self]
    simp [List.mem_append, eq_comm]
  · rw [alistGet_postingAppend_other ix t t'' e h]
    simp [h]

/-- Membership in a posting list after indexing one record's prefix. -/
theorem mem_probe_insertPostings (key : Nat) (ts : List Nat) (ix : List (Nat × List (Nat × Nat)))
    (pos : Nat) (t : Nat) (p : Nat × Nat) :
    (p ∈ (alistGet (insertPostings key ix pos ts) t).getD []) ↔
      p ∈ (alistGet ix t).getD [] ∨
        (p.1 = key ∧ ∃ q, ts[q]? = some t ∧ p.2 = pos + q) := by
  induction ts generalizing ix pos with
  | nil => simp [insertPostings]
  | cons t' ts ih =>
      simp only [insertPostings]
      rw [ih]
      rw [mem_probe_postingAppend]
      constructor
      · rintro (⟨h1 | ⟨ht, hp⟩⟩ | ⟨hk, q, hq, hp⟩)
        · exact Or.inl h1
        · refine Or.inr ⟨by rw [hp], 0, ?_, by simp [hp]⟩
          simpa using ht
        · exact Or.inr ⟨hk, q + 1, by simpa using hq, by omega⟩
      · rintro (h1 | ⟨hk, q, hq, hp⟩)
        · exact Or.inl (Or.inl h1)
        · match q with
          | 0 =>
              have ht' : t' = t := by simpa using hq
              refine Or.inl (Or.inr ⟨ht', ?_⟩)
              obtain ⟨p1, p2⟩ := p
              simp only at hk hp
              simp [hk, hp]
          | q + 1 =>
              exact Or.inr ⟨hk, q, by simpa using hq, by omega⟩

theorem getElem?_take_eq_some (l : List Nat) (m q t : Nat) :
    (l.take m)[q]? = some t ↔ q < m ∧ l[q]? = some t := by
  constructor
  · intro h
    have hq : q < (l.take m).length := by
      by_contra hq
      rw [List.getElem?_eq_none (by omega)] at h
      cases h
    have hqm : q < m := lt_of_lt_of_le hq (by simp [List.length_take])
    refine ⟨hqm, ?_⟩
    rwa [List.getElem?_take_of_lt hqm] at h
  · rintro ⟨h1, h2⟩
    rwa [List.getElem?_take_of_lt h1]

theorem probe_buildStep (pl : Nat → Nat) (acc : PositionIndex) (row : Nat × List Nat)
    (t : Nat) (p : Nat × Nat) :
    p ∈ (buildStep pl acc row).probe t ↔
      p ∈ acc.probe t ∨
        (p.1 = row.1 ∧ p.2 < pl row.2.length ∧ row.2[p.2]? = some t) := by
  show p ∈ (alistGet (insertPostings row.1 acc.index 0 _) t).getD [] ↔ _
  rw [mem_probe_insertPostings]
  constructor
  · rintro (h1 | ⟨hk, q, hq, hp⟩)
    · exact Or.inl h1
    · rw [getElem?_take_eq_some] at hq
      have hq2 : p.2 = q := by omega
      exact Or.inr ⟨hk, by rw [hq2]; exact hq.1, by rw [hq2]; exact hq.2⟩
  · rintro (h1 | ⟨hk, hlt, hget⟩)
    · exact Or.inl h1
    · exact Or.inr ⟨hk, p.2, by rw [getElem?_take_eq_some]; exact ⟨hlt, hget⟩, by omega⟩

theorem mem_probe_build_fold (rows : List (Nat × List Nat)) (pl : Nat → Nat)
    (init : PositionIndex) (t : Nat) (p : Nat × Nat) :
    p ∈ (rows.foldl (buildStep pl) init).probe t ↔
      p ∈ init.probe t ∨
        ∃ row ∈ rows, p.1 = row.1 ∧ p.2 < pl row.2.length ∧ row.2[p.2]? = some t := by
  induction rows generalizing init with
  | nil => simp
  | cons r rs ih =>
      simp only [List.foldl_cons]
      rw [ih, probe_buildStep]
      constructor
      · rintro ((h1 | h2) | ⟨row, hrow, h3⟩)
        · exact Or.inl h1
        · exact Or.inr ⟨r, List.mem_cons_self r rs, h2⟩
        · exact Or.inr ⟨row, List.mem_cons_of_mem _ hrow, h3⟩
      · rintro (h1 | ⟨row, hrow, h3⟩)
        · exact Or.inl (Or.inl h1)
        · rcases List.mem_cons.mp hrow with heq | hmem
          · exact Or.inl (Or.inr (heq ▸ h3))
          · exact Or.inr ⟨row, hmem, h3⟩

theorem get_size_fold_frame (rows : List (Nat × List Nat)) (pl : Nat → Nat)
    (init : PositionIndex) (k : Nat) (h : ∀ r ∈ rows, r.1 ≠ k) :
    (rows.foldl (buildStep pl) init).get_size k = init.get_size k := by
  induction rows generalizing init with
  | nil => rfl
  | cons r rs ih =>
      simp only [List.foldl_cons]
      rw [ih _ (fun r' hr' => h r' (List.mem_cons_of_mem _ hr'))]
      exact alistGet_set_other _ _ _ _ (h r (List.mem_cons_self r rs))

theorem get_size_build_fold (rows : List (Nat × List Nat)) (pl : Nat → Nat)
    (init : PositionIndex) (row : Nat × List Nat) (hrow : row ∈ rows)
    (hkeys : (rows.map Prod.fst).Nodup) :
    (rows.foldl (buildStep pl) init).get_size row.1 = some row.2.length := by
  induction rows generalizing init with
  | nil => cases hrow
  | cons r rs ih =>
      simp only [List.map_cons, List.nodup_cons] at hkeys
      rcases List.mem_cons.mp hrow with heq | hmem
      · subst heq
        simp only [List.foldl_cons]
        rw [get_size_fold_frame rs pl _ row.1 ?hne]
        case hne =>
          intro r' hr' hodd
          exact hkeys.1 (hodd ▸ List.mem_map_of_mem Prod.fst hr')
        exact alistGet_set_self _ _ _
      · exact ih _ hmem hkeys.2

/-- C9: after `PositionIndex.build()` over the left table, every token at
position p within the first prefix-length tokens of a record's ordered token
list yields the posting (key, p) in the index entry of that token, and the
size map stores the record's total ordered token count; `probe` and
`get_size` return exactly the stored values. -/
theorem position_index_build_invariant (rows : List (Nat × List Nat)) (pl : Nat → Nat)
    (row : Nat × List Nat) (hrow : row ∈ rows) (hkeys : (rows.map Prod.fst).Nodup) :
    (∀ p t, p < pl row.2.length → row.2[p]? = some t →
        (row.1, p) ∈ (PositionIndex.build rows pl).probe t) ∧
    (PositionIndex.build rows pl).get_size row.1 = some row.2.length := by
  constructor
  · intro p t hp ht
    rw [PositionIndex.build, mem_probe_build_fold]
    exact Or.inr ⟨row, hrow, rfl, hp, ht⟩
  · exact get_size_build_fold rows pl _ row hrow hkeys

/-- Witness for C9 on a concrete two-record table. -/
theorem position_index_build_invariant_witness :
    ((5, 1) ∈ (PositionIndex.build [(5, [1, 3, 9]), (7, [2, 4])] (fun n => n - 1)).probe 3) ∧
    (PositionIndex.build [(5, [1, 3, 9]), (7, [2, 4])] (fun n => n - 1)).get_size 5 = some 3 := by
  have h := position_index_build_invariant [(5, [1, 3, 9]), (7, [2, 4])] (fun n => n - 1)
      (5, [1, 3, 9]) (by decide) (by decide)
  exact ⟨h.1 1 3 (by decide) (by decide), h.2⟩

/-! ### Position filter: the table-scope sweep

Embedding of `PositionFilter._find_candidates`.  The size bounds `slb`, `sub`
stand for `get_size_lower_bound` / `get_size_upper_bound` at the probe's token
count, and `oth` for the overlap-threshold cache (the source precomputes
`get_overlap_threshold(size, r_num_tokens, ...)` for every size in
`[slb, sub]` and reads the cache only at sizes inside that window, so passing
the function itself is equivalent).  In the source's Python 2, a `None` size
fails the window comparison, so a candidate without a size entry is skipped. -/

/-- The body of the inner `for (cand, cand_pos) in position_index.probe(token)`
loop of `_find_candidates`. -/
def posting_step (slb sub : Nat) (oth : Nat → Int) (idx : PositionIndex)
    (nr rpos : Nat) (d : List (Nat × Nat)) (pr : Nat × Nat) : List (Nat × Nat) :=
  match idx.get_size pr.1 with
  | none => d
  | some nc =>
      if slb ≤ nc ∧ nc ≤ sub then
        let oub : Int := 1 + min ((nr : Int) - rpos - 1) ((nc : Int) - pr.2 - 1)
        let cur := alistGetD d pr.1 0
        if (cur : Int) + oub ≥ oth nc then alistSet d pr.1 (cur + 1)
        else alistSet d pr.1 0
      else d

/-- The outer `for token in r_ordered_tokens[0:r_prefix_length]` loop with its
`r_pos` counter. -/
def token_sweep (slb sub : Nat) (oth : Nat → Int) (idx : PositionIndex) (nr : Nat) :
    List (Nat × Nat) → Nat → List Nat → List (Nat × Nat)
  | d, _, [] => d
  | d, rpos, t :: ts =>
      token_sweep slb sub oth idx nr
        ((idx.probe t).foldl (posting_step slb sub oth idx nr rpos) d) (rpos + 1) ts

/-- Embedding of `PositionFilter._find_candidates(r_ordered_tokens, r_num_tokens,
r_prefix_length, position_index)`: returns the candidate-overlap dictionary. -/
def find_candidates (slb sub : Nat) (oth : Nat → Int) (idx : PositionIndex)
    (rToks : List Nat) (nr rpl : Nat) : List (Nat × Nat) :=
  token_sweep slb sub oth idx nr [] 0 (rToks.take rpl)

/-- The per-posting semantics exactly as the specification words it, written
independently of the source embedding: for the posting (cand, j) retrieved for
the i-th probe prefix token, the candidate is skipped when its token count n_c
lies outside [size_lower, size_upper]; otherwise the overlap upper bound is
computed as 1 + min(n_r − i − 1, n_c − j − 1) and the candidate's overlap count
is incremented by exactly 1 when the current count plus this bound reaches the
cached overlap threshold for (n_c, n_r) (otherwise the entry becomes the
sentinel 0). -/
def claimed_step (slb sub : Nat) (oth : Nat → Int) (sz : Nat → Option Nat)
    (nr i : Nat) (d : List (Nat × Nat)) (cand j : Nat) : List (Nat × Nat) :=
  match sz cand with
  | none => d
  | some nc =>
      if nc < slb ∨ sub < nc then d
      else
        let bound : Int := 1 + min ((nr : Int) - i - 1) ((nc : Int) - j - 1)
        if oth nc ≤ ((alistGetD d cand 0 : Nat) : Int) + bound then
          alistSet d cand (alistGetD d cand 0 + 1)
        else alistSet d cand 0

theorem posting_step_eq_claimed (slb sub : Nat) (oth : Nat → Int) (idx : PositionIndex)
    (nr rpos : Nat) (d : List (Nat × Nat)) (pr : Nat × Nat) :
    posting_step slb sub oth idx nr rpos d pr =
      claimed_step slb sub oth idx.get_size nr rpos d pr.1 pr.2 := by
  unfold posting_step claimed_step
  cases idx.get_size pr.1 with
  | none => rfl
  | some nc =>
      dsimp only
      by_cases hwin : slb ≤ nc ∧ nc ≤ sub
      · rw [if_pos hwin, if_neg (by omega : ¬(nc < slb ∨ sub < nc))]
      · rw [if_neg hwin, if_pos (by omega : nc < slb ∨ sub < nc)]

theorem token_sweep_eq_enumFrom (slb sub : Nat) (oth : Nat → Int) (idx : PositionIndex)
    (nr : Nat) (ts : List Nat) (d : List (Nat × Nat)) (rpos : Nat) :
    token_sweep slb sub oth idx nr d rpos ts =
      (ts.enumFrom rpos).foldl
        (fun d' it => (idx.probe it.2).foldl
          (fun d'' p => claimed_step slb sub oth idx.get_size nr it.1 d'' p.1 p.2) d') d := by
  induction ts generalizing d rpos with
  | nil => rfl
  | cons t ts ih =>
      simp only [token_sweep, List.enumFrom_cons, List.foldl_cons]
      rw [ih]
      have hf : posting_step slb sub oth idx nr rpos =
          fun d'' p => claimed_step slb sub oth idx.get_size nr rpos d'' p.1 p.2 := by
        funext d'' p
        exact posting_step_eq_claimed slb sub oth idx nr rpos d'' p
      rw [hf]

/-- C4: per-step semantics of the position filter sweep.  The source sweep
`_find_candidates` coincides, posting by posting, with the specification's
step function: skip candidates whose token count falls outside the size
window, bound the remaining overlap by 1 + min(n_r − i − 1, n_c − j − 1), and
increment the stored count by exactly one precisely when the current count
plus that bound reaches the cached overlap threshold. -/
theorem find_candidates_step_semantics (slb sub : Nat) (oth : Nat → Int)
    (idx : PositionIndex) (rToks : List Nat) (nr rpl : Nat) :
    find_candidates slb sub oth idx rToks nr rpl =
      ((rToks.take rpl).enum).foldl
        (fun d it => (idx.probe it.2).foldl
          (fun d' p => claimed_step slb sub oth idx.get_size nr it.1 d' p.1 p.2) d) [] := by
  unfold find_candidates
  rw [token_sweep_eq_enumFrom]
  rfl

/-! ### Per-candidate projection of the sweep -/

/-- The overlap upper bound of a sweep event (probe position, candidate
position), as an integer. -/
def oubI (nr nc : Nat) (e : Nat × Nat) : Int :=
  1 + min ((nr : Int) - e.1 - 1) ((nc : Int) - e.2 - 1)

/-- The subsequence of sweep events that concern a single candidate, in
processing order: pairs (probe position, candidate token position). -/
def candTrace (idx : PositionIndex) (rToks : List Nat) (rpl : Nat) (c : Nat) :
    List (Nat × Nat) :=
  ((rToks.take rpl).enum).flatMap
    (fun it => (idx.probe it.2).filterMap
      (fun p => if p.1 = c then some (it.1, p.2) else none))

/-- The sweep restricted to one candidate's events.  The state is the
candidate's dictionary entry (`none` while absent). -/
def sweepCand (slb sub : Nat) (oth : Nat → Int) (nc? : Option Nat) (nr : Nat) :
    Option Nat → List (Nat × Nat) → Option Nat
  | v, [] => v
  | v, e :: evs =>
      match nc? with
      | none => sweepCand slb sub oth nc? nr v evs
      | some nc =>
          if slb ≤ nc ∧ nc ≤ sub then
            sweepCand slb sub oth nc? nr
              (some (if oth nc ≤ ((v.getD 0 : Nat) : Int) + oubI nr nc e
                     then v.getD 0 + 1 else 0)) evs
          else sweepCand slb sub oth nc? nr v evs

theorem alistGet_posting_step_other (slb sub : Nat) (oth : Nat → Int)
    (idx : PositionIndex) (nr rpos : Nat) (d : List (Nat × Nat)) (p : Nat × Nat)
    (c : Nat) (hpc : p.1 ≠ c) :
    alistGet (posting_step slb sub oth idx nr rpos d p) c = alistGet d c := by
  unfold posting_step
  cases idx.get_size p.1 with
  | none => rfl
  | some nc =>
      dsimp only
      by_cases hwin : slb ≤ nc ∧ nc ≤ sub
      · rw [if_pos hwin]
        by_cases hcond : ((alistGetD d p.1 0 : Nat) : Int) +
            (1 + min ((nr : Int) - rpos - 1) ((nc : Int) - p.2 - 1)) ≥ oth nc
        · rw [if_pos hcond]
          exact alistGet_set_other d p.1 c _ hpc
        · rw [if_neg hcond]
          exact alistGet_set_other d p.1 c _ hpc
      · rw [if_neg hwin]

theorem alistGet_foldl_posting (slb sub : Nat) (oth : Nat → Int) (idx : PositionIndex)
    (nr rpos : Nat) (ps : List (Nat × Nat)) (d : List (Nat × Nat)) (c : Nat) :
    alistGet (ps.foldl (posting_step slb sub oth idx nr rpos) d) c =
      sweepCand slb sub oth (idx.get_size c) nr (alistGet d c)
        (ps.filterMap (fun p => if p.1 = c then some (rpos, p.2) else none)) := by
  induction ps generalizing d with
  | nil => rfl
  | cons p ps ih =>
      simp only [List.foldl_cons, List.filterMap_cons]
      by_cases hpc : p.1 = c
      · rw [if_pos hpc, ih]
        have hstep : alistGet (posting_step slb sub oth idx nr rpos d p) c =
            sweepCand slb sub oth (idx.get_size c) nr (alistGet d c) [(rpos, p.2)] := by
          unfold posting_step
          rw [hpc]
          cases hsz : idx.get_size c with
          | none => simp [sweepCand]
          | some nc =>
              dsimp only
              by_cases hwin : slb ≤ nc ∧ nc ≤ sub
              · rw [if_pos hwin]
                simp only [sweepCand, if_pos hwin]
                by_cases hcond : oth nc ≤
                    (((alistGet d c).getD 0 : Nat) : Int) + oubI nr nc (rpos, p.2)
                · rw [if_pos ?hc1, if_pos hcond]
                  · exact alistGet_set_self d c _
                  case hc1 => exact hcond
                · rw [if_neg ?hc2, if_neg hcond]
                  · exact alistGet_set_self d c _
                  case hc2 => exact hcond
              · rw [if_neg hwin]
                simp [sweepCand, hwin]
        rw [hstep]
        cases hsz : idx.get_size c with
        | none => simp [sweepCand]
        | some nc =>
            by_cases hwin : slb ≤ nc ∧ nc ≤ sub
            · simp only [sweepCand, if_pos hwin]
            · simp only [sweepCand, if_neg hwin]
      · rw [if_neg hpc, ih, alistGet_posting_step_other slb sub oth idx nr rpos d p c hpc]

theorem sweepCand_append (slb sub : Nat) (oth : Nat → Int) (nc? : Option Nat) (nr : Nat)
    (evs1 evs2 : List (Nat × Nat)) (v : Option Nat) :
    sweepCand slb sub oth nc? nr v (evs1 ++ evs2) =
      sweepCand slb sub oth nc? nr (sweepCand slb sub oth nc? nr v evs1) evs2 := by
  induction evs1 generalizing v with
  | nil => rfl
  | cons e evs ih =>
      cases nc? with
      | none =>
          simp only [List.cons_append, sweepCand]
          exact ih _
      | some nc =>
          simp only [List.cons_append, sweepCand]
          by_cases hwin : slb ≤ nc ∧ nc ≤ sub
          · rw [if_pos hwin, if_pos hwin]
            exact ih _
          · rw [if_neg hwin, if_neg hwin]
            exact ih _

theorem alistGet_token_sweep (slb sub : Nat) (oth : Nat → Int) (idx : PositionIndex)
    (nr : Nat) (ts : List Nat) (d : List (Nat × Nat)) (rpos c : Nat) :
    alistGet (token_sweep slb sub oth idx nr d rpos ts) c =
      sweepCand slb sub oth (idx.get_size c) nr (alistGet d c)
        ((ts.enumFrom rpos).flatMap
          (fun it => (idx.probe it.2).filterMap
            (fun p => if p.1 = c then some (it.1, p.2) else none))) := by
  induction ts generalizing d rpos with
  | nil => rfl
  | cons t ts ih =>
      simp only [token_sweep, List.enumFrom_cons, List.flatMap_cons]
      rw [ih, alistGet_foldl_posting, sweepCand_append]

theorem alistGet_find_candidates (slb sub : Nat) (oth : Nat → Int) (idx : PositionIndex)
    (rToks : List Nat) (nr rpl c : Nat) :
    alistGet (find_candidates slb sub oth idx rToks nr rpl) c =
      sweepCand slb sub oth (idx.get_size c) nr none (candTrace idx rToks rpl c) := by
  unfold find_candidates candTrace
  rw [alistGet_token_sweep]
  rfl

/-! ### Sentinel-zero permanence -/

theorem oubI_le_oubI (nr nc : Nat) (e e' : Nat × Nat) (h1 : e.1 ≤ e'.1)
    (h2 : e.2 ≤ e'.2) : oubI nr nc e' ≤ oubI nr nc e := by
  unfold oubI
  have hc1 : (e.1 : Int) ≤ e'.1 := by exact_mod_cast h1
  have hc2 : (e.2 : Int) ≤ e'.2 := by exact_mod_cast h2
  apply add_le_add_left
  exact min_le_min (by omega) (by omega)

theorem sweepCand_stays_zero (slb sub : Nat) (oth : Nat → Int) (nc nr : Nat)
    (evs : List (Nat × Nat)) (h : ∀ e ∈ evs, oubI nr nc e < oth nc) :
    sweepCand slb sub oth (some nc) nr (some 0) evs = some 0 := by
  induction evs with
  | nil => rfl
  | cons e evs ih =>
      simp only [sweepCand]
      by_cases hwin : slb ≤ nc ∧ nc ≤ sub
      · rw [if_pos hwin]
        have he := h e (List.mem_cons_self e evs)
        have hne : ¬ (oth nc ≤ (((some (0:Nat)).getD 0 : Nat) : Int) + oubI nr nc e) := by
          simp only [Option.getD_some, Nat.cast_zero]
          omega
        rw [if_neg hne]
        exact ih (fun e' he' => h e' (List.mem_cons_of_mem _ he'))
      · rw [if_neg hwin]
        exact ih (fun e' he' => h e' (List.mem_cons_of_mem _ he'))

theorem sweepCand_reset_zero (slb sub : Nat) (oth : Nat → Int) (nc nr : Nat)
    (e0 : Nat × Nat) (post : List (Nat × Nat)) (v : Option Nat)
    (hwin : slb ≤ nc ∧ nc ≤ sub)
    (hreset : ((v.getD 0 : Nat) : Int) + oubI nr nc e0 < oth nc)
    (hmono : ∀ e ∈ post, e0.1 ≤ e.1 ∧ e0.2 ≤ e.2) :
    sweepCand slb sub oth (some nc) nr v (e0 :: post) = some 0 := by
  simp only [sweepCand, if_pos hwin]
  rw [if_neg (by omega)]
  apply sweepCand_stays_zero
  intro e he
  have h1 := oubI_le_oubI nr nc e0 e (hmono e he).1 (hmono e he).2
  have h2 : (0 : Int) ≤ ((v.getD 0 : Nat) : Int) := Int.ofNat_nonneg _
  omega

/-! ### Monotonicity of a candidate's trace over a set-mode index -/

theorem alist_key_unique {β : Type} (l : List (Nat × β)) (hk : (l.map Prod.fst).Nodup)
    (a b : Nat × β) (ha : a ∈ l) (hb : b ∈ l) (heq : a.1 = b.1) : a = b := by
  induction l with
  | nil => cases ha
  | cons hd tl ih =>
      simp only [List.map_cons, List.nodup_cons] at hk
      rcases List.mem_cons.mp ha with ha1 | ha2 <;>
        rcases List.mem_cons.mp hb with hb1 | hb2
      · rw [ha1, hb1]
      · exfalso
        apply hk.1
        rw [← ha1, heq]
        exact List.mem_map_of_mem Prod.fst hb2
      · exfalso
        apply hk.1
        rw [← hb1, ← heq]
        exact List.mem_map_of_mem Prod.fst ha2
      · exact ih hk.2 ha2 hb2

theorem probe_build_cand (rows : List (Nat × List Nat)) (pl : Nat → Nat)
    (c : Nat) (ctoks : List Nat) (hkeys : (rows.map Prod.fst).Nodup)
    (hc : (c, ctoks) ∈ rows) (j t : Nat)
    (hmem : (c, j) ∈ (PositionIndex.build rows pl).probe t) :
    j < pl ctoks.length ∧ ctoks[j]? = some t := by
  rw [PositionIndex.build, mem_probe_build_fold] at hmem
  rcases hmem with h | ⟨row, hrow, h1, h2, h3⟩
  · simp [PositionIndex.probe, alistGet] at h
  · have hrowc : row = (c, ctoks) :=
      alist_key_unique rows hkeys row (c, ctoks) hrow hc h1.symm
    subst hrowc
    exact ⟨h2, h3⟩

theorem if_some_eq {α : Type} {P : Prop} [Decidable P] {a x : α}
    (h : (if P then some a else none) = some x) : P ∧ x = a := by
  by_cases hp : P
  · rw [if_pos hp] at h
    exact ⟨hp, (Option.some.inj h).symm⟩
  · rw [if_neg hp] at h
    cases h

theorem sorted_getElem?_mono (l : List Nat) (hs : List.Chain' (· < ·) l)
    {a b x y : Nat} (hx : l[a]? = some x) (hy : l[b]? = some y) (hxy : x < y) :
    a < b := by
  have hp := List.chain'_iff_pairwise.mp hs
  rw [List.getElem?_eq_some_iff] at hx hy
  obtain ⟨ha, hx⟩ := hx
  obtain ⟨hb, hy⟩ := hy
  by_contra h
  push_neg at h
  rcases Nat.lt_or_ge b a with hba | hba
  · have := List.pairwise_iff_getElem.mp hp b a hb ha hba
    omega
  · have hab : a = b := by omega
    subst hab
    omega

theorem sorted_getElem?_inj (l : List Nat) (hs : List.Chain' (· < ·) l)
    {a b x : Nat} (hx : l[a]? = some x) (hy : l[b]? = some x) : a = b := by
  have hp := List.chain'_iff_pairwise.mp hs
  rw [List.getElem?_eq_some_iff] at hx hy
  obtain ⟨ha, hx⟩ := hx
  obtain ⟨hb, hy⟩ := hy
  rcases Nat.lt_trichotomy a b with h | h | h
  · have := List.pairwise_iff_getElem.mp hp a b ha hb h
    omega
  · exact h
  · have := List.pairwise_iff_getElem.mp hp b a hb ha h
    omega

theorem candTrace_pairwise (rows : List (Nat × List Nat)) (pl : Nat → Nat)
    (rToks : List Nat) (rpl : Nat) (c : Nat) (ctoks : List Nat)
    (hkeys : (rows.map Prod.fst).Nodup) (hc : (c, ctoks) ∈ rows)
    (hsortc : List.Chain' (· < ·) ctoks)
    (hsortr : List.Chain' (· < ·) (rToks.take rpl)) :
    List.Pairwise (fun e e' : Nat × Nat => e.1 ≤ e'.1 ∧ e.2 ≤ e'.2)
      (candTrace (PositionIndex.build rows pl) rToks rpl c) := by
  unfold candTrace
  rw [List.pairwise_flatMap]
  constructor
  · intro it hit
    apply List.pairwise_of_forall_mem_list
    intro x hx y hy
    rw [List.mem_filterMap] at hx hy
    obtain ⟨p, hp, hpx⟩ := hx
    obtain ⟨q, hq, hqy⟩ := hy
    obtain ⟨hpc, hx⟩ := if_some_eq hpx
    obtain ⟨hqc, hy⟩ := if_some_eq hqy
    have hpmem : (c, p.2) ∈ (PositionIndex.build rows pl).probe it.2 := by
      rw [← hpc]
      exact hp
    have hqmem : (c, q.2) ∈ (PositionIndex.build rows pl).probe it.2 := by
      rw [← hqc]
      exact hq
    have h1 := probe_build_cand rows pl c ctoks hkeys hc p.2 it.2 hpmem
    have h2 := probe_build_cand rows pl c ctoks hkeys hc q.2 it.2 hqmem
    have hj : p.2 = q.2 := sorted_getElem?_inj ctoks hsortc h1.2 h2.2
    rw [hx, hy, hj]
    exact ⟨le_refl _, le_refl _⟩
  · rw [List.pairwise_iff_getElem]
    intro i j hi hj hij x hx y hy
    rw [List.getElem_enum] at hx hy
    rw [List.mem_filterMap] at hx hy
    obtain ⟨p, hp, hpx⟩ := hx
    obtain ⟨q, hq, hqy⟩ := hy
    obtain ⟨hpc, hxv⟩ := if_some_eq hpx
    obtain ⟨hqc, hyv⟩ := if_some_eq hqy
    have hlen : (rToks.take rpl).enum.length = (rToks.take rpl).length := by
      simp
    have hi' : i < (rToks.take rpl).length := by omega
    have hj' : j < (rToks.take rpl).length := by omega
    have hpmem : (c, p.2) ∈ (PositionIndex.build rows pl).probe (rToks.take rpl)[i] := by
      rw [← hpc]
      exact hp
    have hqmem : (c, q.2) ∈ (PositionIndex.build rows pl).probe (rToks.take rpl)[j] := by
      rw [← hqc]
      exact hq
    have h1 := probe_build_cand rows pl c ctoks hkeys hc p.2 _ hpmem
    have h2 := probe_build_cand rows pl c ctoks hkeys hc q.2 _ hqmem
    have htlt : (rToks.take rpl)[i] < (rToks.take rpl)[j] :=
      List.pairwise_iff_getElem.mp (List.chain'_iff_pairwise.mp hsortr) i j hi' hj' hij
    have hjlt : p.2 < q.2 := sorted_getElem?_mono ctoks hsortc h1.2 h2.2 htlt
    rw [hxv, hyv]
    exact ⟨Nat.le_of_lt hij, Nat.le_of_lt hjlt⟩

theorem alistGet_of_mem_nodup {β : Type} (d : List (Nat × β)) (k : Nat) (v : β)
    (hmem : (k, v) ∈ d) (hnd : (d.map Prod.fst).Nodup) : alistGet d k = some v := by
  induction d with
  | nil => cases hmem
  | cons hd tl ih =>
      simp only [List.map_cons, List.nodup_cons] at hnd
      rcases List.mem_cons.mp hmem with h | h
      · rw [← h]
        simp [alistGet]
      · have hne : hd.1 ≠ k := by
          intro hkk
          exact hnd.1 (hkk ▸ List.mem_map_of_mem Prod.fst h)
        simp only [alistGet, if_neg hne]
        exact ih h hnd.2

theorem posting_step_keys_nodup (slb sub : Nat) (oth : Nat → Int) (idx : PositionIndex)
    (nr rpos : Nat) (d : List (Nat × Nat)) (p : Nat × Nat)
    (h : (d.map Prod.fst).Nodup) :
    ((posting_step slb sub oth idx nr rpos d p).map Prod.fst).Nodup := by
  unfold posting_step
  cases idx.get_size p.1 with
  | none => exact h
  | some nc =>
      dsimp only
      by_cases hwin : slb ≤ nc ∧ nc ≤ sub
      · rw [if_pos hwin]
        by_cases hcond : ((alistGetD d p.1 0 : Nat) : Int) +
            (1 + min ((nr : Int) - rpos - 1) ((nc : Int) - p.2 - 1)) ≥ oth nc
        · rw [if_pos hcond]
          exact alistSet_keys_nodup d p.1 _ h
        · rw [if_neg hcond]
          exact alistSet_keys_nodup d p.1 _ h
      · rw [if_neg hwin]
        exact h

theorem token_sweep_keys_nodup (slb sub : Nat) (oth : Nat → Int) (idx : PositionIndex)
    (nr : Nat) (ts : List Nat) (d : List (Nat × Nat)) (rpos : Nat)
    (h : (d.map Prod.fst).Nodup) :
    ((token_sweep slb sub oth idx nr d rpos ts).map Prod.fst).Nodup := by
  induction ts generalizing d rpos with
  | nil => exact h
  | cons t ts ih =>
      simp only [token_sweep]
      apply ih
      have : ∀ ps : List (Nat × Nat), ∀ d' : List (Nat × Nat),
          ((d'.map Prod.fst).Nodup) →
          (((ps.foldl (posting_step slb sub oth idx nr rpos) d').map Prod.fst).Nodup) := by
        intro ps
        induction ps with
        | nil => intro d' hd'; exact hd'
        | cons q qs ihq =>
            intro d' hd'
            exact ihq _ (posting_step_keys_nodup slb sub oth idx nr rpos d' q hd')
      exact this _ d h

theorem find_candidates_keys_nodup (slb sub : Nat) (oth : Nat → Int)
    (idx : PositionIndex) (rToks : List Nat) (nr rpl : Nat) :
    ((find_candidates slb sub oth idx rToks nr rpl).map Prod.fst).Nodup :=
  token_sweep_keys_nodup slb sub oth idx nr (rToks.take rpl) [] 0 (by simp)

/-- C3: sentinel-zero pruning is permanent in the table-scope position filter.
Over a position index built from set-mode ordered records (strictly sorted
token lists, unique keys) and a strictly sorted probe prefix, once the sweep
sets a candidate's entry to the sentinel 0 - because its accumulated overlap
plus its optimistic remaining overlap 1 + min(n_r − i − 1, n_c − j − 1) falls
below the overlap threshold - no later prefix token of the same probe ever
increments that candidate's count again: its final entry is exactly 0, so it
is absent from the returned candidates with overlap > 0. -/
theorem sentinel_zero_permanent (rows : List (Nat × List Nat)) (pl : Nat → Nat)
    (slb sub : Nat) (oth : Nat → Int) (rToks : List Nat) (nr rpl : Nat)
    (c : Nat) (ctoks : List Nat) (nc : Nat)
    (pre post : List (Nat × Nat)) (e0 : Nat × Nat)
    (hkeys : (rows.map Prod.fst).Nodup) (hc : (c, ctoks) ∈ rows)
    (hsortc : List.Chain' (· < ·) ctoks)
    (hsortr : List.Chain' (· < ·) (rToks.take rpl))
    (hsplit : candTrace (PositionIndex.build rows pl) rToks rpl c = pre ++ e0 :: post)
    (hsz : (PositionIndex.build rows pl).get_size c = some nc)
    (hwin : slb ≤ nc ∧ nc ≤ sub)
    (hreset : (((sweepCand slb sub oth (some nc) nr none pre).getD 0 : Nat) : Int) +
        oubI nr nc e0 < oth nc) :
    alistGet (find_candidates slb sub oth (PositionIndex.build rows pl) rToks nr rpl) c
        = some 0 ∧
    ∀ v, (c, v) ∈ find_candidates slb sub oth (PositionIndex.build rows pl) rToks nr rpl
        → v = 0 := by
  have hproj := alistGet_find_candidates slb sub oth (PositionIndex.build rows pl)
      rToks nr rpl c
  rw [hsz, hsplit, sweepCand_append] at hproj
  have hpar := candTrace_pairwise rows pl rToks rpl c ctoks hkeys hc hsortc hsortr
  rw [hsplit] at hpar
  have hmono : ∀ e ∈ post, e0.1 ≤ e.1 ∧ e0.2 ≤ e.2 :=
    (List.pairwise_cons.mp (List.pairwise_append.mp hpar).2.1).1
  have hzero := sweepCand_reset_zero slb sub oth nc nr e0 post
      (sweepCand slb sub oth (some nc) nr none pre) hwin hreset hmono
  rw [hzero] at hproj
  refine ⟨hproj, ?_⟩
  intro v hv
  have := alistGet_of_mem_nodup _ c v hv
      (find_candidates_keys_nodup slb sub oth (PositionIndex.build rows pl) rToks nr rpl)
  rw [hproj] at this
  exact Option.some.inj this.symm

/-- Witness for C3: a candidate whose first event already fails the bound is
reset and stays at 0 although its remaining prefix token matches. -/
theorem sentinel_zero_permanent_witness :
    alistGet (find_candidates 0 100 (fun _ => 3)
        (PositionIndex.build [(1, [0, 1, 2, 3])] (fun n => n)) [2, 3] 2 2) 1
      = some 0 :=
  (sentinel_zero_permanent [(1, [0, 1, 2, 3])] (fun n => n) 0 100 (fun _ => 3)
      [2, 3] 2 2 1 [0, 1, 2, 3] 4 [] [(1, 3)] (0, 2)
      (by decide) (by decide) (by simp) (by simp) (by decide) (by decide)
      (by decide) (by decide)).1

/-! ### Executable rational arithmetic

The spec's similarity math is exact rational arithmetic.  The standard `Rat`
operations are irreducible in this toolchain, so executable counterparts are
defined through `mkRat` and proved equal to the standard operations. -/

def natQ (n : Nat) : ℚ := mkRat n 1

def qmul (a b : ℚ) : ℚ := mkRat (a.num * b.num) (a.den * b.den)

def qadd (a b : ℚ) : ℚ := mkRat (a.num * b.den + b.num * a.den) (a.den * b.den)

def qsub (a b : ℚ) : ℚ := mkRat (a.num * b.den - b.num * a.den) (a.den * b.den)

def qinv (b : ℚ) : ℚ :=
  if b.num < 0 then mkRat (-(b.den : Int)) b.num.natAbs
  else mkRat b.den b.num.toNat

def qdiv (a b : ℚ) : ℚ := qmul a (qinv b)

theorem natQ_eq (n : Nat) : natQ n = (n : ℚ) := by
  rw [natQ, Rat.mkRat_eq_div]
  push_cast
  exact div_one _

theorem qmul_eq (a b : ℚ) : qmul a b = a * b := by
  rw [qmul, Rat.mkRat_eq_div]
  push_cast
  conv_rhs => rw [← Rat.num_div_den a, ← Rat.num_div_den b]
  rw [div_mul_div_comm]

theorem qadd_eq (a b : ℚ) : qadd a b = a + b := by
  rw [qadd, Rat.mkRat_eq_div]
  push_cast
  conv_rhs => rw [← Rat.num_div_den a, ← Rat.num_div_den b]
  rw [div_add_div (a.num : ℚ) (b.num : ℚ)
    (by exact_mod_cast a.den_nz) (by exact_mod_cast b.den_nz)]
  ring_nf

theorem qsub_eq (a b : ℚ) : qsub a b = a - b := by
  rw [qsub, Rat.mkRat_eq_div]
  push_cast
  conv_rhs => rw [← Rat.num_div_den a, ← Rat.num_div_den b]
  rw [div_sub_div (a.num : ℚ) (b.num : ℚ)
    (by exact_mod_cast a.den_nz) (by exact_mod_cast b.den_nz)]
  ring_nf

theorem qinv_eq (b : ℚ) : qinv b = b⁻¹ := by
  rw [qinv]
  rcases lt_trichotomy b.num 0 with h | h | h
  · rw [if_pos h, Rat.mkRat_eq_div, Rat.inv_def', Rat.divInt_eq_div]
    have h1 : ((b.num.natAbs : ℚ)) = -(b.num : ℚ) := by
      rw [Int.cast_natAbs, abs_of_neg h]
      push_cast
      ring
    rw [h1]
    push_cast
    rw [neg_div_neg_eq]
  · have hb : b = 0 := by
      rw [← Rat.num_eq_zero]
      exact h
    subst hb
    norm_num
  · rw [if_neg (by omega), Rat.mkRat_eq_div, Rat.inv_def', Rat.divInt_eq_div]
    have h1 : ((b.num.toNat : ℚ)) = (b.num : ℚ) := by
      have h2 : ((b.num.toNat : Int)) = b.num := by omega
      calc ((b.num.toNat : ℚ)) = (((b.num.toNat : Int)) : ℚ) := by norm_cast
        _ = (b.num : ℚ) := by rw [h2]
    rw [h1]

theorem qdiv_eq (a b : ℚ) : qdiv a b = a / b := by
  rw [qdiv, qmul_eq, qinv_eq, div_eq_mul_inv]

/-! ### Tokenizer model and token ordering -/

/-- Tokenizer state: the `return_set` flag toggling bag vs set semantics plus
further configuration fields (q-gram length, padding) that the join drivers
must not modify. -/
structure Tokenizer where
  return_set : Bool
  qval : Nat
  padding : Bool
deriving DecidableEq

/-- First-occurrence deduplication (bag to set conversion). -/
def dedup (l : List Nat) : List Nat :=
  l.foldl (fun acc t => if t ∈ acc then acc else acc ++ [t]) []

/-- Modelled from the spec: the helper `tokenize(input_string, tokenizer,
sim_measure_type)` of the missing `utils/tokenizers.py`.  Records enter the
model as the raw token bags produced by the tokenizer's split of the
join-attribute string; per the spec's tokenizer interface, `return_set`
toggles bag vs set semantics (the spec attributes any set-mode coercion to
the drivers, not to this helper). -/
def tokenize (raw : List Nat) (tok : Tokenizer) : List Nat :=
  if tok.return_set then dedup raw else raw

/-- Modelled from the spec: document frequency = number of records containing
the token at least once, over both tables combined (missing
`utils/token_ordering.py`). -/
def docFreq (recs : List (List Nat)) (t : Nat) : Nat :=
  recs.countP (fun r => decide (t ∈ r))

def insertPairSorted (x : Nat × Nat) : List (Nat × Nat) → List (Nat × Nat)
  | [] => [x]
  | y :: ys =>
      if x.1 < y.1 ∨ (x.1 = y.1 ∧ x.2 ≤ y.2) then x :: y :: ys
      else y :: insertPairSorted x ys

def sortPairs (l : List (Nat × Nat)) : List (Nat × Nat) := l.foldr insertPairSorted []

/-- Modelled from the spec: `gen_token_ordering_for_tables` sorts the distinct
tokens of both tables by (document frequency ascending, token ascending); a
token's rank is its index in the resulting list. -/
def gen_token_ordering (recs : List (List Nat)) : List Nat :=
  (sortPairs ((dedup recs.flatten).map (fun t => (docFreq recs t, t)))).map Prod.snd

def insertNatSorted (x : Nat) : List Nat → List Nat
  | [] => [x]
  | y :: ys => if x ≤ y then x :: y :: ys else y :: insertNatSorted x ys

def sortNat (l : List Nat) : List Nat := l.foldr insertNatSorted []

/-- Modelled from the spec: `order_using_token_ordering` maps each token to
its rank in the ordering and sorts ascending; unknown tokens are dropped. -/
def order_using (ord : List Nat) (toks : List Nat) : List Nat :=
  sortNat (toks.filterMap (fun t => ord.indexOf? t))

/-! ### Similarity math and verifier -/

/-- The set similarity measures that the drivers present in this repository
(jaccard_join, dice_join) route through `set_sim_join`. -/
inductive Measure
  | JACCARD
  | DICE
deriving DecidableEq

/-- Modelled from the spec: `get_prefix_length` of the missing
`filter/filter_utils.py`, clamped to [0, n]. -/
def get_prefix_length (n : Nat) (m : Measure) (τ : ℚ) : Nat :=
  let v : Int :=
    match m with
    | .JACCARD => (n : Int) - Rat.ceil (qmul τ (natQ n)) + 1
    | .DICE => (n : Int) - Rat.ceil (qdiv (qmul τ (natQ n)) (qsub (natQ 2) τ)) + 1
  (min v (n : Int)).toNat

/-- Modelled from the spec: `get_size_lower_bound`. -/
def get_size_lower_bound (n : Nat) (m : Measure) (τ : ℚ) : Nat :=
  match m with
  | .JACCARD => (Rat.ceil (qmul τ (natQ n))).toNat
  | .DICE => (Rat.ceil (qdiv (qmul τ (natQ n)) (qsub (natQ 2) τ))).toNat

/-- Modelled from the spec: `get_size_upper_bound`. -/
def get_size_upper_bound (n : Nat) (m : Measure) (τ : ℚ) : Nat :=
  match m with
  | .JACCARD => (Rat.floor (qdiv (natQ n) τ)).toNat
  | .DICE => (Rat.floor (qdiv (qmul (natQ n) (qsub (natQ 2) τ)) τ)).toNat

/-- Modelled from the spec: `get_overlap_threshold`. -/
def get_overlap_threshold (x y : Nat) (m : Measure) (τ : ℚ) : Int :=
  match m with
  | .JACCARD => Rat.ceil (qdiv (qmul τ (natQ (x + y))) (qadd (natQ 1) τ))
  | .DICE => Rat.ceil (qdiv (qmul τ (natQ (x + y))) (natQ 2))

def interCount (x y : List Nat) : Nat := (x.filter (fun t => t ∈ y)).length

def unionCount (x y : List Nat) : Nat := x.length + (y.filter (fun t => t ∉ x)).length

/-- Modelled from the spec: the exact verifier of the missing
`utils/simfunctions.py`, per measure, on ordered token lists with set
semantics; a pair of empty token lists has similarity defined as 1.0. -/
def sim_fn (m : Measure) (x y : List Nat) : ℚ :=
  if x.length = 0 ∧ y.length = 0 then 1
  else
    match m with
    | .JACCARD => qdiv (natQ (interCount x y)) (natQ (unionCount x y))
    | .DICE => qdiv (natQ (2 * interCount x y)) (natQ (x.length + y.length))

/-! ### The set-similarity join driver -/

/-- Embedding of `set_sim_join` (src join/set_sim_join.py): build the token
ordering over both tables, cache the ordered tokens of the left table, build
the position index, then for each right record run the position filter,
verify every candidate with overlap > 0 by recomputing the similarity on the
ordered token lists, and emit (l_key, r_key, score) when
`sim_score >= threshold`.  The source function has no comparison-operator or
allow_empty parameter: the verification comparison is the hard-coded `>=`
and no empty-record handling exists. -/
def set_sim_join (ltable rtable : List (Nat × List Nat)) (tok : Tokenizer)
    (m : Measure) (τ : ℚ) : List (Nat × Nat × ℚ) :=
  let ord := gen_token_ordering ((ltable ++ rtable).map (fun r => tokenize r.2 tok))
  let lordered := ltable.map (fun r => (r.1, order_using ord (tokenize r.2 tok)))
  let idx := PositionIndex.build lordered (fun n => get_prefix_length n m τ)
  rtable.flatMap (fun rr =>
    let rToks := order_using ord (tokenize rr.2 tok)
    let nr := rToks.length
    let rpl := get_prefix_length nr m τ
    let cand := find_candidates (get_size_lower_bound nr m τ)
        (get_size_upper_bound nr m τ)
        (fun nc => get_overlap_threshold nc nr m τ) idx rToks nr rpl
    cand.filterMap (fun cv =>
      if 0 < cv.2 then
        let ltoks := (alistGet lordered cv.1).getD []
        let score := sim_fn m ltoks rToks
        if τ ≤ score then some (cv.1, rr.1, score) else none
      else none))

/-- Soundness of the verification step of `set_sim_join` as the source writes
it: every emitted row's score satisfies the hard-coded `sim_score >= threshold`
comparison and is the similarity recomputed by `sim_fn` on the cached ordered
token list of the left record and the freshly ordered tokenization of the
right record. -/
theorem set_sim_join_sound (lt rt : List (Nat × List Nat)) (tok : Tokenizer)
    (m : Measure) (τ : ℚ) (lk rk : Nat) (s : ℚ)
    (hmem : (lk, rk, s) ∈ set_sim_join lt rt tok m τ) :
    τ ≤ s ∧ ∃ rrow ∈ rt, rk = rrow.1 ∧
      s = sim_fn m
        ((alistGet (lt.map (fun r => (r.1, order_using
            (gen_token_ordering ((lt ++ rt).map (fun r => tokenize r.2 tok)))
            (tokenize r.2 tok)))) lk).getD [])
        (order_using (gen_token_ordering ((lt ++ rt).map (fun r => tokenize r.2 tok)))
          (tokenize rrow.2 tok)) := by
  simp only [set_sim_join, List.mem_flatMap, List.mem_filterMap] at hmem
  obtain ⟨rr, hrr, cv, hcv, heq⟩ := hmem
  split at heq
  · split at heq
    · rename_i hle
      have h1 := Option.some.inj heq
      have hlk : cv.1 = lk := congrArg (fun z : Nat × Nat × ℚ => z.1) h1
      have hrk : rr.1 = rk := by
        have := congrArg (fun z : Nat × Nat × ℚ => z.2.1) h1
        simpa using this
      have hs := congrArg (fun z : Nat × Nat × ℚ => z.2.2) h1
      simp only at hs hlk
      refine ⟨?_, rr, hrr, hrk.symm, ?_⟩
      · rw [← hs]
        exact hle
      · rw [← hs, hlk]
    · cases heq
  · cases heq

/-- Embedding of `jaccard_join` (src join/jaccard_join.py): after validation it invokes
`set_sim_join` with measure JACCARD; the caller's tokenizer flag is not
modified anywhere in the function. -/
def jaccard_join (lt rt : List (Nat × List Nat)) (tok : Tokenizer) (τ : ℚ) :
    List (Nat × Nat × ℚ) :=
  set_sim_join lt rt tok Measure.JACCARD τ

/-- Embedding of `dice_join` (src join/dice_join.py): it coerces the tokenizer's return_set
flag to true when it is false, runs `set_sim_join` with measure DICE, and
reverts the flag before returning.  The result is (output rows, tokenizer
state at return). -/
def dice_join (lt rt : List (Nat × List Nat)) (tok : Tokenizer) (τ : ℚ) :
    List (Nat × Nat × ℚ) × Tokenizer :=
  let revert := !tok.return_set
  let tok1 := if tok.return_set then tok else { tok with return_set := true }
  let out := set_sim_join lt rt tok1 Measure.DICE τ
  let tok2 := if revert then { tok1 with return_set := false } else tok1
  (out, tok2)

/-- Embedding of `overlap_join` (src join/overlap_join.py, lines 66-87): the output is
delegated to the OverlapFilter (not part of this repository's sources);
modelled here is the tokenizer discipline around that call: the return_set
flag is coerced to true when it is false - so the filter runs in set mode -
and reverted before returning.  The result is (tokenizer seen by the filter,
tokenizer state at return). -/
def overlap_join_tokenizer (tok : Tokenizer) : Tokenizer × Tokenizer :=
  let revert := !tok.return_set
  let tok1 := if tok.return_set then tok else { tok with return_set := true }
  let tok2 := if revert then { tok1 with return_set := false } else tok1
  (tok1, tok2)

/-! ### Claim theorems on the driver -/

/-- C1 (failing-input evaluation): `set_sim_join` in this repository has no
comparison-operator parameter and verifies with the hard-coded `>=` (its
callers dice_join and jaccard_join nevertheless pass a comp_op argument), so
on the spec's Dice scenario - τ = 1/2 and Dice similarity exactly 1/2 - the
pair is emitted although the claim requires it to be excluded when the
configured operator is '>'. -/
theorem set_sim_join_ignores_comp_op :
    set_sim_join [(1, [10, 11, 12, 13])] [(1, [10, 11, 14, 15])] ⟨true, 3, true⟩
        Measure.DICE (mkRat 1 2) = [(1, 1, mkRat 1 2)] ∧
    ¬ (mkRat 1 2 > mkRat 1 2) := by decide

/-- C2 (failing-input evaluation): completeness fails on the pair of
empty-token records: its similarity is defined as 1.0, which satisfies
`sim >= τ`, yet `set_sim_join` emits nothing because it has no allow_empty
parameter or empty-pair handling (an empty record has prefix length 0 and is
never indexed or probed). -/
theorem set_sim_join_incomplete_on_empty_pair :
    (mkRat 1 2) ≤ sim_fn Measure.JACCARD [] [] ∧
    set_sim_join [(1, [])] [(1, [])] ⟨true, 3, true⟩ Measure.JACCARD (mkRat 1 2)
      = [] := by decide

/-- C5 (failing-input evaluation): the allow_empty policy is absent from
`set_sim_join`: the both-empty pair whose similarity is defined as 1.0 is not
emitted, while the exclusion of pairs with exactly one empty side does hold. -/
theorem set_sim_join_empty_policy :
    set_sim_join [(1, [])] [(1, [])] ⟨true, 3, true⟩ Measure.DICE (mkRat 1 2)
        = [] ∧
    sim_fn Measure.DICE [] [] = 1 ∧
    set_sim_join [(1, [])] [(2, [7, 8])] ⟨true, 3, true⟩ Measure.DICE (mkRat 1 2)
        = [] ∧
    set_sim_join [(1, [7, 8])] [(2, [])] ⟨true, 3, true⟩ Measure.DICE (mkRat 1 2)
        = [] := by decide

/-- C6 (counterexample): `jaccard_join` does not coerce the tokenizer into set
mode, so its output is not neutral in the initial return_set flag: with
L = {(1, bag [a, a, b])} and R = {(9, [a, b])} at τ = 1, set mode emits the
pair (Jaccard 1) while bag mode drops it through the size filter
(3 tokens outside the window [2, 2]). -/
theorem jaccard_join_mode_dependent :
    jaccard_join [(1, [0, 0, 1])] [(9, [0, 1])] ⟨true, 3, true⟩ 1 ≠
    jaccard_join [(1, [0, 0, 1])] [(9, [0, 1])] ⟨false, 3, true⟩ 1 := by decide

/-- C6 (amended): among the drivers present in this repository, dice_join and
overlap_join coerce the tokenizer into set mode (return_set = true) for the
duration of the call, while jaccard_join leaves the caller's mode untouched;
consequently dice_join's output is identical whatever the initial return_set
value (no such neutrality holds for jaccard_join). -/
theorem driver_tokenizer_mode (lt rt : List (Nat × List Nat)) (τ : ℚ)
    (q : Nat) (p : Bool) (b1 b2 : Bool) :
    (overlap_join_tokenizer ⟨b1, q, p⟩).1.return_set = true ∧
    (dice_join lt rt ⟨b1, q, p⟩ τ).1 = (dice_join lt rt ⟨b2, q, p⟩ τ).1 := by
  constructor
  · cases b1 <;> rfl
  · cases b1 <;> cases b2 <;> rfl

/-- C10: frame property of the drivers: when dice_join (and overlap_join)
return, the caller's tokenizer has the same return_set flag it had at call
time - the coercion to set mode is reverted before returning - and no other
tokenizer configuration field is modified. -/
theorem join_restores_tokenizer (lt rt : List (Nat × List Nat)) (τ : ℚ)
    (tok : Tokenizer) :
    (dice_join lt rt tok τ).2 = tok ∧ (overlap_join_tokenizer tok).2 = tok := by
  obtain ⟨b, q, p⟩ := tok
  cases b <;> exact ⟨rfl, rfl⟩

/-! ### Edit-distance join -/

/-- The comparison operators COMP_OP_MAP supports for edit distance. -/
inductive CompOp
  | le
  | lt
  | eq
deriving DecidableEq

def CompOp.holds (c : CompOp) (d : Nat) (τ : Int) : Bool :=
  match c with
  | .le => (d : Int) ≤ τ
  | .lt => (d : Int) < τ
  | .eq => (d : Int) = τ

/-- Modelled from the spec: `get_sim_function('EDIT_DISTANCE')` of the missing
`utils/simfunctions.py` is the standard Levenshtein distance on the original
strings. -/
def lev : List Char → List Char → Nat
  | [], ys => ys.length
  | x :: xs, [] => (x :: xs).length
  | x :: xs, y :: ys =>
      if x = y then lev xs ys
      else 1 + min (lev xs ys) (min (lev (x :: xs) ys) (lev xs (y :: ys)))
termination_by xs ys => xs.length + ys.length
decreasing_by all_goals (simp only [List.length_cons]; omega)

/-- Embedding of the candidate-verification loop of `_edit_distance_join_split`
(src join/edit_distance_join.py lines 276-294) for one right record: each
candidate index from the prefix filter is first tested against the raw-length
window `r_len − τ ≤ len(l) ≤ r_len + τ`; survivors are verified by computing
the exact edit distance on the original strings and comparing it with the
configured operator; emitted rows carry (l_key, r_key, distance).  In the
source a candidate index is always a valid index into ltable_list (it comes
from the prefix index built over that list), so the out-of-range branch is
unreachable and skips. -/
def ed_join_verify (lrows : List (Nat × List Char)) (τ : Int) (cmp : CompOp)
    (rKey : Nat) (rStr : List Char) (cands : List Nat) : List (Nat × Nat × Nat) :=
  cands.foldl (fun acc cand =>
    match lrows[cand]? with
    | none => acc
    | some lrow =>
        if (rStr.length : Int) - τ ≤ (lrow.2.length : Int) ∧
            (lrow.2.length : Int) ≤ (rStr.length : Int) + τ then
          if CompOp.holds cmp (lev lrow.2 rStr) τ then
            acc ++ [(lrow.1, rKey, lev lrow.2 rStr)]
          else acc
        else acc) []

/-- C7: edit-distance join candidate window and verification.  A row is
emitted for right record r exactly when some prefix-filter candidate index
resolves to a left row whose raw join-string length lies in the window
[|r| − τ, |r| + τ] and whose exact Levenshtein distance to r's string
satisfies the configured comparison with τ; the emitted score is that exact
distance. -/
theorem ed_join_verify_characterization (lrows : List (Nat × List Char))
    (τ : Int) (cmp : CompOp) (rKey : Nat) (rStr : List Char) (cands : List Nat)
    (lk rk d : Nat) :
    (lk, rk, d) ∈ ed_join_verify lrows τ cmp rKey rStr cands ↔
      rk = rKey ∧ ∃ cand ∈ cands, ∃ lstr,
        lrows[cand]? = some (lk, lstr) ∧
        ((rStr.length : Int) - τ ≤ (lstr.length : Int) ∧
          (lstr.length : Int) ≤ (rStr.length : Int) + τ) ∧
        CompOp.holds cmp (lev lstr rStr) τ = true ∧
        d = lev lstr rStr := by
  unfold ed_join_verify
  suffices h : ∀ acc : List (Nat × Nat × Nat),
      (lk, rk, d) ∈ cands.foldl (fun acc cand =>
        match lrows[cand]? with
        | none => acc
        | some lrow =>
            if (rStr.length : Int) - τ ≤ (lrow.2.length : Int) ∧
                (lrow.2.length : Int) ≤ (rStr.length : Int) + τ then
              if CompOp.holds cmp (lev lrow.2 rStr) τ then
                acc ++ [(lrow.1, rKey, lev lrow.2 rStr)]
              else acc
            else acc) acc ↔
        (lk, rk, d) ∈ acc ∨ (rk = rKey ∧ ∃ cand ∈ cands, ∃ lstr,
          lrows[cand]? = some (lk, lstr) ∧
          ((rStr.length : Int) - τ ≤ (lstr.length : Int) ∧
            (lstr.length : Int) ≤ (rStr.length : Int) + τ) ∧
          CompOp.holds cmp (lev lstr rStr) τ = true ∧
          d = lev lstr rStr) by
    rw [h []]
    simp
  induction cands with
  | nil => simp
  | cons cand cands ih =>
      intro acc
      simp only [List.foldl_cons]
      cases hrow : lrows[cand]? with
      | none =>
          rw [ih acc]
          constructor
          · rintro (h1 | ⟨hrk, c', hc', rest⟩)
            · exact Or.inl h1
            · exact Or.inr ⟨hrk, c', List.mem_cons_of_mem _ hc', rest⟩
          · rintro (h1 | ⟨hrk, c', hc', lstr, hl, rest⟩)
            · exact Or.inl h1
            · rcases List.mem_cons.mp hc' with hceq | hcm
              · rw [hceq] at hl
                rw [hrow] at hl
                cases hl
              · exact Or.inr ⟨hrk, c', hcm, lstr, hl, rest⟩
      | some lrow =>
          dsimp only
          by_cases hwin : (rStr.length : Int) - τ ≤ (lrow.2.length : Int) ∧
              (lrow.2.length : Int) ≤ (rStr.length : Int) + τ
          · rw [if_pos hwin]
            by_cases hcmp : CompOp.holds cmp (lev lrow.2 rStr) τ = true
            · rw [if_pos hcmp, ih]
              constructor
              · rintro (h1 | ⟨hrk, c', hc', rest⟩)
                · rcases List.mem_append.mp h1 with h2 | h2
                  · exact Or.inl h2
                  · rcases List.mem_singleton.mp h2 with h3
                    refine Or.inr ⟨by
                        have := congrArg (fun z : Nat × Nat × Nat => z.2.1) h3
                        simpa using this,
                      cand, List.mem_cons_self cand cands, lrow.2, ?_, hwin, hcmp, ?_⟩
                    · have h4 := congrArg (fun z : Nat × Nat × Nat => z.1) h3
                      simp only at h4
                      rw [hrow, h4]
                    · have h5 := congrArg (fun z : Nat × Nat × Nat => z.2.2) h3
                      simpa using h5
                · exact Or.inr ⟨hrk, c', List.mem_cons_of_mem _ hc', rest⟩
              · rintro (h1 | ⟨hrk, c', hc', lstr, hl, hw, hcm, hd⟩)
                · exact Or.inl (List.mem_append.mpr (Or.inl h1))
                · rcases List.mem_cons.mp hc' with hceq | hcm2
                  · rw [hceq, hrow] at hl
                    have hle := Option.some.inj hl
                    apply Or.inl
                    apply List.mem_append.mpr
                    apply Or.inr
                    apply List.mem_singleton.mpr
                    rw [hrk, hd, hle]
                  · exact Or.inr ⟨hrk, c', hcm2, lstr, hl, hw, hcm, hd⟩
            · rw [if_neg hcmp, ih]
              constructor
              · rintro (h1 | ⟨hrk, c', hc', rest⟩)
                · exact Or.inl h1
                · exact Or.inr ⟨hrk, c', List.mem_cons_of_mem _ hc', rest⟩
              · rintro (h1 | ⟨hrk, c', hc', lstr, hl, hw, hcm, hd⟩)
                · exact Or.inl h1
                · rcases List.mem_cons.mp hc' with hceq | hcm2
                  · rw [hceq, hrow] at hl
                    have hle := Option.some.inj hl
                    exfalso
                    apply hcmp
                    rw [hle]
                    exact hcm
                  · exact Or.inr ⟨hrk, c', hcm2, lstr, hl, hw, hcm, hd⟩
          · rw [if_neg hwin]
            rw [ih]
            constructor
            · rintro (h1 | ⟨hrk, c', hc', rest⟩)
              · exact Or.inl h1
              · exact Or.inr ⟨hrk, c', List.mem_cons_of_mem _ hc', rest⟩
            · rintro (h1 | ⟨hrk, c', hc', lstr, hl, hw, hcm, hd⟩)
              · exact Or.inl h1
              · rcases List.mem_cons.mp hc' with hceq | hcm2
                · rw [hceq, hrow] at hl
                  have hle := Option.some.inj hl
                  exfalso
                  apply hwin
                  rw [hle]
                  exact hw
                · exact Or.inr ⟨hrk, c', hcm2, lstr, hl, hw, hcm, hd⟩

/-! ### Single-pair position filter -/

/-- The `l_prefix_dict` construction of `PositionFilter.filter_pair` (src
filter/position_filter.py lines 68-71), exactly as written: `l_pos` is
initialised to 0 before the loop and the loop body only performs
`l_prefix_dict[token] = l_pos`, so the counter component of the state is
never incremented and every left prefix token is associated with 0. -/
def filter_pair_prefix_dict (lpref : List Nat) : List (Nat × Nat) :=
  (lpref.foldl (fun st t => (alistSet st.1 t st.2, st.2))
    (([] : List (Nat × Nat)), 0)).1

/-- The dictionary as claim C8 words it: each token of the left ordered
prefix is associated with its 0-based position l_pos in the ordered left
token list (the counter advances with each token). -/
def claimed_prefix_dict (lpref : List Nat) : List (Nat × Nat) :=
  (lpref.foldl (fun st t => (alistSet st.1 t st.2, st.2 + 1))
    (([] : List (Nat × Nat)), 0)).1

/-- The positional sweep of `filter_pair` (src lines 77-91): walk the right
ordered prefix; on a dictionary hit compute the overlap upper bound and
return true (drop) at once when the accumulated overlap plus the bound falls
below the overlap threshold, otherwise increment the overlap; after the loop
return true exactly when the accumulated overlap is 0. -/
def filter_pair_sweep (ldict : List (Nat × Nat)) (lnum rnum : Nat) (oth : Int) :
    Nat → Nat → List Nat → Bool
  | cur, _, [] => decide (cur = 0)
  | cur, rpos, t :: ts =>
      match alistGet ldict t with
      | none => filter_pair_sweep ldict lnum rnum oth cur (rpos + 1) ts
      | some lpos =>
          let oub : Int := 1 + min ((lnum : Int) - lpos - 1) ((rnum : Int) - rpos - 1)
          if (cur : Int) + oub < oth then true
          else filter_pair_sweep ldict lnum rnum oth (cur + 1) (rpos + 1) ts

/-- Embedding of `PositionFilter.filter_pair` from its token level onward
(the source first returns True for an empty input string; the claim concerns
non-empty strings, whose raw token bags are the inputs here).  An ad-hoc
two-record ordering is built, both records are ordered, and the positional
sweep runs over the right prefix against the left prefix dictionary.
Returns true when the pair is dropped. -/
def filter_pair (lraw rraw : List Nat) (tok : Tokenizer) (m : Measure) (τ : ℚ) :
    Bool :=
  let ltokens := tokenize lraw tok
  let rtokens := tokenize rraw tok
  let ord := gen_token_ordering [ltokens, rtokens]
  let ol := order_using ord ltokens
  let orr := order_using ord rtokens
  let lnum := ol.length
  let rnum := orr.length
  let lpl := get_prefix_length lnum m τ
  let rpl := get_prefix_length rnum m τ
  let ldict := filter_pair_prefix_dict (ol.take lpl)
  let oth := get_overlap_threshold lnum rnum m τ
  filter_pair_sweep ldict lnum rnum oth 0 0 (orr.take rpl)

/-- C8 (failing-input evaluation): on the Jaccard pair with left raw tokens
[10, 11, 12, 13] and right raw tokens [12, 13] at τ = 1/2, the ordered left
prefix is [0, 1, 2], yet the dictionary that `filter_pair` builds maps its
third token to position 0 - `l_pos` is never incremented - where the claim
requires position 2. -/
theorem filter_pair_lpos_never_incremented :
    (let ord := gen_token_ordering
        [tokenize [10, 11, 12, 13] ⟨true, 3, true⟩,
         tokenize [12, 13] ⟨true, 3, true⟩]
     let ol := order_using ord (tokenize [10, 11, 12, 13] ⟨true, 3, true⟩)
     let lpref := ol.take (get_prefix_length ol.length Measure.JACCARD (mkRat 1 2))
     lpref = [0, 1, 2] ∧
     alistGet (filter_pair_prefix_dict lpref) 2 = some 0 ∧
     alistGet (claimed_prefix_dict lpref) 2 = some 2) := by decide

end StringSimJoin
